import Mathlib

/-!
Verification of the `asap` micro-scheduler (es/raw.js and es/index.js)

This file gives a shallow embedding of the two layers of the scheduler:

* `Raw` (es/raw.js): the task queue `queue`, the cursor `index`, the
  `flushing` flag, the `capacity` constant (1024), the `rawAsap`
  scheduling operation and the `flush` loop with its periodic compaction.
* `Asap` (es/index.js, the variant that imports ./raw; the repository
  also ships a self-contained variant with the same bodies): the
  recyclable task holders (`freeTasks` pool), the `pendingErrors` queue,
  `throwFirstError`, `asap`, and the holder `call` logic that isolates
  task exceptions.

Tasks are modelled by their observable behaviour: a raw task (`RTask`)
carries an identifier, the list of tasks it itself schedules while
running (recursive `rawAsap` calls), and whether it ends by throwing.
A safe-level task (`STask`) carries an identifier and whether it throws.
Invocations are recorded in a `log` of task identifiers; platform
request-primitive invocations are counted in `requests` (for
`requestFlush`) and `errorThrowRequests` (for `requestErrorThrow`).

The `flush` while-loop is embedded fuel-indexed (the loop need not
terminate when tasks reschedule themselves forever); the theorems supply
sufficient fuel where termination is provable.
-/

/-- A raw-level task: `schedules` is the list of tasks it passes to
`rawAsap` while running, `throws` tells whether its call ends by raising
an exception, `id` is an identifier used to log its invocation. -/
inductive RTask : Type where
  | mk (schedules : List RTask) (throws : Bool) (id : Nat)

def RTask.schedules : RTask → List RTask
  | .mk s _ _ => s

def RTask.throws : RTask → Bool
  | .mk _ b _ => b

def RTask.id : RTask → Nat
  | .mk _ _ i => i

instance : Inhabited RTask := ⟨.mk [] false 0⟩

/-- A plain raw task: it schedules nothing while running. -/
def RTask.plain (t : RTask) : Prop := t.schedules = []

/-- State of a `Raw` scheduler instance (es/raw.js constructor):
`queue`, `index` (the cursor), `flushing`, plus two observation fields:
`requests` counts invocations of the platform `requestFlush` primitive
and `log` records the identifiers of invoked tasks in order. -/
structure RState where
  queue : List RTask
  index : Nat
  flushing : Bool
  requests : Nat
  log : List Nat

/-- The constant `this.capacity = 1024` (es/raw.js). -/
def capacity : Nat := 1024

/-- Initial state built by the `Raw` constructor. -/
def initR : RState :=
  { queue := [], index := 0, flushing := false, requests := 0, log := [] }

/-- es/raw.js `rawAsap(task)`:
`if (!this.queue.length) { this.requestFlush(); this.flushing = true; }`
then `this.queue[this.queue.length] = task` (an append). -/
def rawAsapR (t : RTask) (s : RState) : RState :=
  let s1 := if s.queue.length = 0 then
      { s with requests := s.requests + 1, flushing := true }
    else s
  { s1 with queue := s1.queue ++ [t] }

/-- The still-pending tasks: entries at positions at or after the cursor. -/
def RState.pending (s : RState) : List RTask := s.queue.drop s.index

/-- The compaction loop of es/raw.js `flush`:
`for (scan = 0, newLength = queue.length - index; scan < newLength; scan++)
  queue[scan] = queue[scan + index];`
followed by `queue.length -= index`.  Because each read position
`scan + index` is strictly ahead of every write position made so far
(`index ≥ 1`), every read sees the original entry, so the resulting
array is exactly the map below. -/
def compactQueue {α : Type} [Inhabited α] (q : List α) (idx : Nat) : List α :=
  (List.range (q.length - idx)).map (fun scan => q.getD (scan + idx) default)

/-- The compaction step of `flush`: applied when `this.index > this.capacity`;
it rewrites the queue with `compactQueue` and resets `this.index = 0`. -/
def maybeCompact (s : RState) : RState :=
  if capacity < s.index then
    { s with queue := compactQueue s.queue s.index, index := 0 }
  else s

/-- Running the body of a raw task `queue[currentIndex].call()`: the
invocation is logged, then the task performs its own `rawAsap` calls in
order.  (Whether it then throws is inspected by the flush loop.) -/
def runTaskBody (t : RTask) (s : RState) : RState :=
  t.schedules.foldl (fun a u => rawAsapR u a) { s with log := s.log ++ [t.id] }

/-- Outcome of a (fuel-indexed) run of `flush`: normal return, a task
exception propagating out of `flush` (carrying the thrower's id), or
fuel exhaustion (the loop has not yet finished). -/
inductive FOut where
  | ok (s : RState)
  | threw (e : Nat) (s : RState)
  | outOfFuel (s : RState)

def FOut.state : FOut → RState
  | .ok s => s
  | .threw _ s => s
  | .outOfFuel s => s

/-- es/raw.js `flush()`, fuel-indexed:
`while (this.index < this.queue.length) { var currentIndex = this.index;
this.index = this.index + 1; this.queue[currentIndex].call();
if (this.index > this.capacity) { ...compaction... } }`
then `this.queue.length = 0; this.index = 0; this.flushing = false;`.
The cursor is advanced strictly before the task is invoked; if the task
throws, the exception propagates at once (`threw`), skipping both the
compaction check and the epilogue. -/
def flushRaw : Nat → RState → FOut
  | 0, s => .outOfFuel s
  | fuel + 1, s =>
    if h : s.index < s.queue.length then
      let t := s.queue[s.index]
      let s1 := runTaskBody t { s with index := s.index + 1 }
      if t.throws then .threw t.id s1
      else flushRaw fuel (maybeCompact s1)
    else .ok { s with queue := [], index := 0, flushing := false }

/-- One host-triggered call to `flush`, with fuel that suffices whenever
the pending tasks schedule nothing further. -/
def flushOnce (s : RState) : FOut := flushRaw (s.queue.length - s.index + 1) s

/-- Performs `k` successive host calls to `flush` (the host re-arms after an
exception propagates, as the spec directs raw callers to do). -/
def flushResume : Nat → RState → RState
  | 0, s => s
  | k + 1, s => flushResume k (flushOnce s).state

/-- Scheduling a whole list of tasks by successive `rawAsap` calls,
starting from a freshly constructed scheduler. -/
def schedAllR (Q : List RTask) : RState := Q.foldl (fun s t => rawAsapR t s) initR

/-! ## The safe layer (es/index.js, `class Asap extends Raw`) -/

/-- Errors observable at the safe layer: the error thrown by the task
with a given id, or the `TypeError` raised when a holder is invoked with
a null task reference. -/
inductive AErr : Type where
  | taskErr (id : Nat)
  | typeErr
  deriving DecidableEq

/-- A safe-level task: identifier plus whether its call throws. -/
structure STask where
  id : Nat
  throws : Bool

/-- A recyclable task holder (the object built by `getRawTask`): its
`task` field is either `none` (cleared) or the bound task. -/
abbrev Holder : Type := Option STask

/-- State of an `Asap` scheduler instance: the inherited `Raw` fields
(`queue` of holders, `index`, `flushing`, with `requests` counting
`requestFlush` invocations and `log` recording invoked task ids) plus
the `Asap` constructor's own fields: the `freeTasks` pool (the JS array
is used as a stack via push/pop at its end; we model it with the list
head as the top), `pendingErrors`, a counter `errorThrowRequests` of
`requestErrorThrow` invocations, the test-only `onerror` hook (modelled
by whether it is configured, plus a log of the errors passed to it). -/
structure AState where
  queue : List Holder
  index : Nat
  flushing : Bool
  requests : Nat
  freeTasks : List Holder
  pendingErrors : List AErr
  errorThrowRequests : Nat
  onerror : Bool
  hookLog : List AErr
  log : List Nat

/-- State built by the `Asap` constructor (the hook may or may not have
been configured by a test harness afterwards). -/
def initA (oe : Bool) : AState :=
  { queue := [], index := 0, flushing := false, requests := 0,
    freeTasks := [], pendingErrors := [], errorThrowRequests := 0,
    onerror := oe, hookLog := [], log := [] }

/-- The inherited `rawAsap(task)` operating on the safe scheduler's
state, scheduling a holder. -/
def rawAsapA (h : Holder) (s : AState) : AState :=
  let s1 := if s.queue.length = 0 then
      { s with requests := s.requests + 1, flushing := true }
    else s
  { s1 with queue := s1.queue ++ [h] }

/-- es/index.js `asap(task)`: pop a holder from `freeTasks` if the pool
is non-empty, else build a fresh one with `getRawTask` (task reference
null); set its `task` field to the scheduled task; hand it to `rawAsap`. -/
def asapA (t : STask) (s : AState) : AState :=
  let s1 := match s.freeTasks with
    | [] => s
    | _ :: rest => { s with freeTasks := rest }
  rawAsapA (some t) s1

/-- The holder's `call` (es/index.js `getRawTask`):
`try { rawTask.task.call() } catch (error) { if (asap.onerror)
asap.onerror(error); else { pendingErrors.push(error);
requestErrorThrow(); } } finally { rawTask.task = null;
freeTasks[freeTasks.length] = rawTask; }`.
When the task reference is null, `rawTask.task.call()` itself raises a
`TypeError`, which the same catch block handles.  No exception leaves
`call`. -/
def holderCall (h : Holder) (s : AState) : AState :=
  match h with
  | some t =>
    let s1 := { s with log := s.log ++ [t.id] }
    let s2 :=
      if t.throws then
        if s1.onerror then { s1 with hookLog := s1.hookLog ++ [AErr.taskErr t.id] }
        else { s1 with pendingErrors := s1.pendingErrors ++ [AErr.taskErr t.id],
                       errorThrowRequests := s1.errorThrowRequests + 1 }
      else s1
    { s2 with freeTasks := none :: s2.freeTasks }
  | none =>
    let s2 :=
      if s.onerror then { s with hookLog := s.hookLog ++ [AErr.typeErr] }
      else { s with pendingErrors := s.pendingErrors ++ [AErr.typeErr],
                    errorThrowRequests := s.errorThrowRequests + 1 }
    { s2 with freeTasks := none :: s2.freeTasks }

/-- Pending holders of the safe scheduler's queue. -/
def AState.pending (s : AState) : List Holder := s.queue.drop s.index

/-- Compaction step of the inherited `flush`, on the holder queue. -/
def maybeCompactA (s : AState) : AState :=
  if capacity < s.index then
    { s with queue := compactQueue s.queue s.index, index := 0 }
  else s

/-- The inherited `flush()` running over the holder queue, fuel-indexed.
Holder calls never throw, so no exception path exists here; with the
fuel chosen by `flushSafe` below the loop always completes. -/
def flushSafeF : Nat → AState → AState
  | 0, s => s
  | fuel + 1, s =>
    if h : s.index < s.queue.length then
      let s1 := holderCall s.queue[s.index] { s with index := s.index + 1 }
      flushSafeF fuel (maybeCompactA s1)
    else { s with queue := [], index := 0, flushing := false }

/-- One host-triggered `flush` on the safe scheduler: since each loop
iteration removes one pending holder and holders schedule nothing, a
fuel of (number of pending holders) + 1 runs the loop to completion. -/
def flushSafe (s : AState) : AState := flushSafeF (s.queue.length - s.index + 1) s

/-- es/index.js `throwFirstError()`: if `pendingErrors` is non-empty,
`throw this.pendingErrors.shift()` — remove and throw the head.
Returns the thrown error (if any) together with the new state. -/
def throwFirstError (s : AState) : Option AErr × AState :=
  match s.pendingErrors with
  | [] => (none, s)
  | e :: rest => (some e, { s with pendingErrors := rest })

/-- Performs `k` successive low-priority turns each invoking `throwFirstError`;
returns the errors thrown, in order, with the final state. -/
def drainErrors : Nat → AState → List AErr × AState
  | 0, s => ([], s)
  | k + 1, s =>
    match throwFirstError s with
    | (none, s1) => ([], s1)
    | (some e, s1) =>
      let p := drainErrors k s1
      (e :: p.1, p.2)

/-- Scheduling a list of tasks by successive `asap` calls on a freshly
constructed safe scheduler. -/
def schedAllA (oe : Bool) (Q : List STask) : AState :=
  Q.foldl (fun s t => asapA t s) (initA oe)

/-! ## Construction of `requestErrorThrow` (es/index.js line 14)

The `Asap` constructor evaluates
`this.rawAsap.makeRequestCallFromTimer(this.throwFirstError)`.
At that point `this.rawAsap` holds the result of
`this.rawAsap.bind(this)` (es/raw.js line 101) — a bound function.  We
model just enough of JavaScript member lookup to evaluate that line: a
function value carries the list of callable members reachable on it,
and calling a missing member raises a `TypeError`.  The repository's
self-contained variant of the same class instead evaluates
`this.makeRequestCallFromTimer(this.throwFirstError)` on the instance,
where the member exists. -/

/-- The members relevant to the constructor line. -/
inductive JsMember : Type where
  | makeRequestCallFromTimer
  | makeRequestCallFromMutationObserver
  deriving DecidableEq

/-- A JavaScript function value, modelled by the callable members
reachable on it (own properties or via its prototype chain). -/
structure JsFunVal where
  members : List JsMember

/-- The `rawAsap` class method is a plain function: neither it nor
`Function.prototype` carries the `Raw` methods as members. -/
def rawAsapMethodVal : JsFunVal := ⟨[]⟩

/-- Semantics of `Function.prototype.bind`: the bound function exposes only `name`
and `length` own properties and inherits from `Function.prototype`; no
member of the original class instance becomes reachable on it. -/
def bindJs (_ : JsFunVal) : JsFunVal := ⟨[]⟩

/-- The value of `this.rawAsap` once the `Raw` constructor has run
(`this.rawAsap = this.rawAsap.bind(this)`, es/raw.js line 101). -/
def rawAsapFieldVal : JsFunVal := bindJs rawAsapMethodVal

/-- The members reachable on `this` itself inside the constructor: the
`Raw` constructor has bound-and-assigned `makeRequestCallFromTimer` and
`makeRequestCallFromMutationObserver` as instance fields (es/raw.js
lines 57-58), and both exist on the class prototype anyway. -/
def asapInstanceVal : JsFunVal :=
  ⟨[.makeRequestCallFromTimer, .makeRequestCallFromMutationObserver]⟩

inductive CtorOutcome : Type where
  | builtTimerRequest
  | typeError
  deriving DecidableEq

/-- Evaluating `base.makeRequestCallFromTimer(this.throwFirstError)`:
if the member is reachable on `base` the timer-based request function is
built and assigned; otherwise the member access yields `undefined` and
the call raises a `TypeError`, aborting the constructor. -/
def buildRequestErrorThrow (base : JsFunVal) : CtorOutcome :=
  if base.members.contains .makeRequestCallFromTimer then .builtTimerRequest
  else .typeError

/-- es/index.js line 14 as shipped:
`this.requestErrorThrow = this.rawAsap.makeRequestCallFromTimer(this.throwFirstError)`. -/
def constructRequestErrorThrow : CtorOutcome := buildRequestErrorThrow rawAsapFieldVal

/-- The same line in the repository's self-contained variant of the
class: `this.requestErrorThrow = this.makeRequestCallFromTimer(this.throwFirstError)`. -/
def constructRequestErrorThrowStandalone : CtorOutcome :=
  buildRequestErrorThrow asapInstanceVal

/-! ## Basic facts about the embedded operations -/

theorem compactQueue_eq_drop {α : Type} [Inhabited α] (q : List α) (idx : Nat)
    (h : idx ≤ q.length) : compactQueue q idx = q.drop idx := by
  apply List.ext_getElem
  · simp [compactQueue]
  · intro i h1 h2
    rw [List.length_drop] at h2
    simp only [compactQueue, List.getElem_map, List.getElem_range, List.getElem_drop]
    rw [List.getD_eq_getElem?_getD, List.getElem?_eq_getElem (by omega),
      Option.getD_some]
    congr 1
    omega

theorem rawAsapR_queue (t : RTask) (s : RState) :
    (rawAsapR t s).queue = s.queue ++ [t] := by
  simp only [rawAsapR]
  split <;> rfl

theorem rawAsapR_index (t : RTask) (s : RState) :
    (rawAsapR t s).index = s.index := by
  simp only [rawAsapR]
  split <;> rfl

theorem rawAsapR_log (t : RTask) (s : RState) :
    (rawAsapR t s).log = s.log := by
  simp only [rawAsapR]
  split <;> rfl

theorem rawAsapR_requests (t : RTask) (s : RState) (h : s.queue ≠ []) :
    (rawAsapR t s).requests = s.requests := by
  simp only [rawAsapR]
  rw [if_neg (by simpa using h)]

theorem rawAsapR_flushing (t : RTask) (s : RState) (h : s.queue ≠ []) :
    (rawAsapR t s).flushing = s.flushing := by
  simp only [rawAsapR]
  rw [if_neg (by simpa using h)]

/-- Effect of a task body's own `rawAsap` calls on the queue and the
bookkeeping fields (the queue is non-empty throughout, so no request is
issued). -/
theorem schedList_spec (L : List RTask) (s : RState) (h : s.queue ≠ []) :
    (L.foldl (fun a u => rawAsapR u a) s).queue = s.queue ++ L
    ∧ (L.foldl (fun a u => rawAsapR u a) s).index = s.index
    ∧ (L.foldl (fun a u => rawAsapR u a) s).log = s.log
    ∧ (L.foldl (fun a u => rawAsapR u a) s).requests = s.requests
    ∧ (L.foldl (fun a u => rawAsapR u a) s).flushing = s.flushing := by
  induction L generalizing s with
  | nil => simp
  | cons t L ih =>
    have hne : (rawAsapR t s).queue ≠ [] := by
      simp [rawAsapR_queue]
    obtain ⟨h1, h2, h3, h4, h5⟩ := ih (rawAsapR t s) hne
    refine ⟨?_, ?_, ?_, ?_, ?_⟩ <;>
      simp [h1, h2, h3, h4, h5, rawAsapR_queue, rawAsapR_index, rawAsapR_log,
        rawAsapR_requests t s h, rawAsapR_flushing t s h]

theorem maybeCompact_pending (s : RState) (h : s.index ≤ s.queue.length) :
    (maybeCompact s).pending = s.pending := by
  simp only [maybeCompact]
  split
  · simp [RState.pending, compactQueue_eq_drop s.queue s.index h]
  · rfl

theorem maybeCompact_log (s : RState) : (maybeCompact s).log = s.log := by
  simp only [maybeCompact]; split <;> rfl

theorem maybeCompact_requests (s : RState) :
    (maybeCompact s).requests = s.requests := by
  simp only [maybeCompact]; split <;> rfl

theorem maybeCompact_flushing (s : RState) :
    (maybeCompact s).flushing = s.flushing := by
  simp only [maybeCompact]; split <;> rfl

theorem maybeCompact_inv (s : RState) (h : s.index ≤ s.queue.length) :
    (maybeCompact s).index ≤ (maybeCompact s).queue.length := by
  simp only [maybeCompact]
  split
  · simp
  · exact h

theorem pending_length (s : RState) : s.pending.length = s.queue.length - s.index := by
  simp [RState.pending]

theorem pending_cons_head (s : RState) (t : RTask) (rest : List RTask)
    (h : s.pending = t :: rest) :
    ∃ hlt : s.index < s.queue.length,
      s.queue[s.index] = t ∧ s.queue.drop (s.index + 1) = rest := by
  have hlt : s.index < s.queue.length := by
    by_contra hge
    rw [RState.pending, List.drop_eq_nil_of_le (by omega)] at h
    exact List.noConfusion h
  refine ⟨hlt, ?_⟩
  rw [RState.pending, List.drop_eq_getElem_cons hlt] at h
  exact ⟨(List.cons.injEq _ _ _ _ ▸ h).1, (List.cons.injEq _ _ _ _ ▸ h).2⟩

theorem runTaskBody_plain (t : RTask) (s : RState) (h : t.schedules = []) :
    runTaskBody t s = { s with log := s.log ++ [t.id] } := by
  simp [runTaskBody, h]

/-- One iteration of the flush loop on a plain head task: the cursor is
advanced and the task invoked; a throwing task propagates at once, a
returning one hands the (possibly compacted) state to the rest of the
loop. -/
theorem flushRaw_cons_step (fuel : Nat) (s : RState) (t : RTask) (rest : List RTask)
    (hp : s.pending = t :: rest) (hplain : t.schedules = []) :
    (t.throws = true → flushRaw (fuel + 1) s =
      .threw t.id { s with index := s.index + 1, log := s.log ++ [t.id] })
    ∧ (t.throws = false → flushRaw (fuel + 1) s =
      flushRaw fuel (maybeCompact { s with index := s.index + 1, log := s.log ++ [t.id] })) := by
  obtain ⟨hlt, hhead, _⟩ := pending_cons_head s t rest hp
  constructor
  · intro hth
    simp [flushRaw, dif_pos hlt, hhead, hth, runTaskBody_plain t _ hplain]
  · intro hth
    simp [flushRaw, dif_pos hlt, hhead, hth, runTaskBody_plain t _ hplain]

theorem pending_advance (s : RState) (t : RTask) (rest : List RTask)
    (hp : s.pending = t :: rest) :
    RState.pending { s with index := s.index + 1, log := s.log ++ [t.id] } = rest := by
  obtain ⟨_, _, hdrop⟩ := pending_cons_head s t rest hp
  simpa [RState.pending] using hdrop

theorem pending_advance_le (s : RState) (t : RTask) (rest : List RTask)
    (hp : s.pending = t :: rest) :
    s.index + 1 ≤ s.queue.length := by
  obtain ⟨hlt, _, _⟩ := pending_cons_head s t rest hp
  omega

/-- Running `flush` over pending plain tasks none of which throws: the
loop completes, empties the queue, resets the cursor, clears the flag,
and has invoked exactly the pending tasks, in order. -/
theorem flushRaw_ok_of_noThrow (P : List RTask) :
    ∀ (fuel : Nat) (s : RState), s.pending = P →
      (∀ t ∈ P, t.schedules = []) → (∀ t ∈ P, t.throws = false) →
      P.length < fuel →
      flushRaw fuel s = .ok
        { queue := [], index := 0, flushing := false,
          requests := s.requests, log := s.log ++ P.map RTask.id } := by
  induction P with
  | nil =>
    intro fuel s hp _ _ hf
    obtain ⟨f, rfl⟩ : ∃ f, fuel = f + 1 := ⟨fuel - 1, by omega⟩
    have hge : ¬ s.index < s.queue.length := by
      have hl := pending_length s
      rw [hp] at hl
      simp at hl
      omega
    simp only [flushRaw, dif_neg hge]
    simp
  | cons t rest ih =>
    intro fuel s hp hplain hthrow hf
    obtain ⟨f, rfl⟩ : ∃ f, fuel = f + 1 := ⟨fuel - 1, by omega⟩
    have hstep := (flushRaw_cons_step f s t rest hp (hplain t (by simp))).2
      (hthrow t (by simp))
    rw [hstep]
    set s1 : RState := { s with index := s.index + 1, log := s.log ++ [t.id] } with hs1
    have hpend1 : (maybeCompact s1).pending = rest := by
      rw [maybeCompact_pending s1 (pending_advance_le s t rest hp)]
      exact pending_advance s t rest hp
    have := ih f (maybeCompact s1) hpend1
      (fun u hu => hplain u (by simp [hu]))
      (fun u hu => hthrow u (by simp [hu]))
      (by simp at hf; omega)
    rw [this, maybeCompact_requests, maybeCompact_log]
    simp [hs1]

/-- Running `flush` when the first throwing pending task is `t` (plain
tasks): the exception propagates out of `flush` carrying `t`'s error,
after the tasks up to and including `t` have each been invoked once;
the tasks after `t` are exactly the pending tasks of the interrupted
state. -/
theorem flushRaw_threw_spec (P1 : List RTask) :
    ∀ (t : RTask) (P2 : List RTask) (fuel : Nat) (s : RState),
      s.pending = P1 ++ t :: P2 →
      (∀ u ∈ P1 ++ t :: P2, u.schedules = []) →
      (∀ u ∈ P1, u.throws = false) → t.throws = true → P1.length < fuel →
      ∃ s2, flushRaw fuel s = .threw t.id s2
        ∧ s2.pending = P2
        ∧ s2.log = s.log ++ (P1 ++ [t]).map RTask.id
        ∧ s2.requests = s.requests
        ∧ s2.flushing = s.flushing := by
  induction P1 with
  | nil =>
    intro t P2 fuel s hp hplain _ hth hf
    obtain ⟨f, rfl⟩ : ∃ f, fuel = f + 1 := ⟨fuel - 1, by omega⟩
    simp only [List.nil_append] at hp
    have hstep := (flushRaw_cons_step f s t P2 hp (hplain t (by simp))).1 hth
    refine ⟨_, hstep, ?_, ?_, rfl, rfl⟩
    · exact pending_advance s t P2 hp
    · simp
  | cons u P1 ih =>
    intro t P2 fuel s hp hplain hnothrow hth hf
    obtain ⟨f, rfl⟩ : ∃ f, fuel = f + 1 := ⟨fuel - 1, by omega⟩
    rw [List.cons_append] at hp
    have hstep := (flushRaw_cons_step f s u (P1 ++ t :: P2) hp
      (hplain u (by simp))).2 (hnothrow u (by simp))
    rw [hstep]
    set s1 : RState := { s with index := s.index + 1, log := s.log ++ [u.id] } with hs1
    have hpend1 : (maybeCompact s1).pending = P1 ++ t :: P2 := by
      rw [maybeCompact_pending s1 (pending_advance_le s u _ hp)]
      exact pending_advance s u _ hp
    obtain ⟨s2, heq, hp2, hlog, hreq, hfl⟩ := ih t P2 f (maybeCompact s1) hpend1
      (fun v hv => hplain v (by simp at hv ⊢; tauto))
      (fun v hv => hnothrow v (by simp [hv]))
      hth (by simp at hf; omega)
    refine ⟨s2, heq, hp2, ?_, ?_, ?_⟩
    · rw [hlog, maybeCompact_log]
      simp [hs1]
    · rw [hreq, maybeCompact_requests]
    · rw [hfl, maybeCompact_flushing]

/-- Number of throwing tasks in a list. -/
def throwCount (P : List RTask) : Nat := (P.filter (fun t => t.throws)).length

theorem first_throw_split (P : List RTask) (h : ¬ ∀ t ∈ P, t.throws = false) :
    ∃ P1 t P2, P = P1 ++ t :: P2 ∧ (∀ u ∈ P1, u.throws = false) ∧ t.throws = true := by
  induction P with
  | nil => exact absurd (by simp) h
  | cons a P ih =>
    by_cases ha : a.throws = true
    · exact ⟨[], a, P, by simp, by simp, ha⟩
    · have hP : ¬ ∀ t ∈ P, t.throws = false := by
        intro hall
        exact h (by
          intro t ht
          rcases List.mem_cons.mp ht with rfl | ht
          · simpa using ha
          · exact hall t ht)
      obtain ⟨P1, t, P2, hsplit, hfree, hth⟩ := ih hP
      exact ⟨a :: P1, t, P2, by simp [hsplit], by
        intro u hu
        rcases List.mem_cons.mp hu with rfl | hu
        · simpa using ha
        · exact hfree u hu, hth⟩

/-- A drained scheduler is a fixed point of further host flush calls. -/
theorem flushResume_fix (k : Nat) (s : RState) (hq : s.queue = [])
    (hi : s.index = 0) (hf : s.flushing = false) : flushResume k s = s := by
  induction k generalizing s with
  | zero => rfl
  | succ k ih =>
    have hstep : flushOnce s = .ok s := by
      have hge : ¬ s.index < s.queue.length := by simp [hq, hi]
      simp only [flushOnce, flushRaw, dif_neg hge]
      cases s
      simp_all
    show flushResume k (flushOnce s).state = s
    rw [hstep]
    exact ih s hq hi hf

/-- Repeated host flush calls over plain pending tasks: as long as more
host calls happen than tasks throw, every pending task is invoked
exactly once, in queue order, and afterwards the queue is drained. -/
theorem flushResume_spec (k : Nat) :
    ∀ (P : List RTask) (s : RState), s.pending = P →
      (∀ t ∈ P, t.schedules = []) → throwCount P < k →
      flushResume k s =
        { queue := [], index := 0, flushing := false,
          requests := s.requests, log := s.log ++ P.map RTask.id } := by
  induction k with
  | zero => intro P s _ _ hk; omega
  | succ k ih =>
    intro P s hp hplain hk
    by_cases hth : ∀ t ∈ P, t.throws = false
    · have hok := flushRaw_ok_of_noThrow P (s.queue.length - s.index + 1) s hp hplain hth
        (by
          have hl := pending_length s
          rw [hp] at hl
          omega)
      show flushResume k (flushOnce s).state = _
      rw [flushOnce, hok]
      exact flushResume_fix k _ rfl rfl rfl
    · obtain ⟨P1, t, P2, hsplit, hfree, htth⟩ := first_throw_split P hth
      subst hsplit
      obtain ⟨s2, heq, hp2, hlog, hreq, _⟩ :=
        flushRaw_threw_spec P1 t P2 (s.queue.length - s.index + 1) s hp hplain hfree htth
        (by
          have := pending_length s
          rw [hp] at this
          simp at this
          omega)
      show flushResume k (flushOnce s).state = _
      rw [flushOnce, heq]
      have hcount : throwCount P2 < k := by
        have h1 : throwCount (P1 ++ t :: P2)
            = throwCount P1 + (throwCount P2 + 1) := by
          simp [throwCount, List.filter_append, htth]
        have h2 : throwCount P1 = 0 := by
          simp only [throwCount, List.length_eq_zero, List.filter_eq_nil_iff]
          intro u hu
          simp [hfree u hu]
        omega
      have hfin := ih P2 s2 hp2 (by
        intro u hu
        exact hplain u (by simp [hu])) hcount
      show flushResume k s2 = _
      rw [hfin, hlog, hreq]
      simp

/-- Properties of a freshly constructed raw scheduler after scheduling a
list of tasks: the queue holds exactly those tasks, the cursor is 0, no
task has been invoked, and the request primitive has fired only for the
first task. -/
theorem schedAllR_spec (Q : List RTask) :
    (schedAllR Q).queue = Q ∧ (schedAllR Q).index = 0 ∧ (schedAllR Q).log = []
      ∧ (schedAllR Q).pending = Q := by
  have main : ∀ (L : List RTask) (s : RState), s.queue ≠ [] →
      (L.foldl (fun a u => rawAsapR u a) s).queue = s.queue ++ L
      ∧ (L.foldl (fun a u => rawAsapR u a) s).index = s.index
      ∧ (L.foldl (fun a u => rawAsapR u a) s).log = s.log :=
    fun L s h => ⟨(schedList_spec L s h).1, (schedList_spec L s h).2.1,
      (schedList_spec L s h).2.2.1⟩
  cases Q with
  | nil => simp [schedAllR, initR, RState.pending]
  | cons t Q =>
    have h1 : schedAllR (t :: Q) = Q.foldl (fun a u => rawAsapR u a) (rawAsapR t initR) := rfl
    have hne : (rawAsapR t initR).queue ≠ [] := by simp [rawAsapR_queue, initR]
    obtain ⟨hq, hi, hl⟩ := main Q (rawAsapR t initR) hne
    rw [h1]
    refine ⟨?_, ?_, ?_, ?_⟩
    · rw [hq, rawAsapR_queue]
      simp [initR]
    · rw [hi, rawAsapR_index]
      rfl
    · rw [hl, rawAsapR_log]
      rfl
    · rw [RState.pending, hq, hi, rawAsapR_queue, rawAsapR_index]
      simp [initR]

/-- Whenever `flush` returns normally (for any tasks, reentrant or not),
it has executed the epilogue: queue truncated, cursor reset, flag cleared. -/
theorem flushRaw_ok_state (fuel : Nat) :
    ∀ (s s2 : RState), flushRaw fuel s = .ok s2 →
      s2.queue = [] ∧ s2.index = 0 ∧ s2.flushing = false := by
  induction fuel with
  | zero => intro s s2 h; exact FOut.noConfusion h
  | succ fuel ih =>
    intro s s2 h
    rw [flushRaw] at h
    by_cases hlt : s.index < s.queue.length
    · rw [dif_pos hlt] at h
      by_cases hth : (s.queue[s.index]).throws = true
      · rw [if_pos hth] at h
        exact FOut.noConfusion h
      · rw [if_neg hth] at h
        exact ih _ s2 h
    · rw [dif_neg hlt] at h
      cases h
      exact ⟨rfl, rfl, rfl⟩

/-- Effect of a (possibly reentrant) task body on the cursor and the
queue length: the cursor is untouched and the queue only grows. -/
theorem runTaskBody_inv (t : RTask) (s : RState) :
    (runTaskBody t s).index = s.index
      ∧ s.queue.length ≤ (runTaskBody t s).queue.length := by
  rw [runTaskBody]
  generalize t.schedules = L
  generalize hgen : ({ s with log := s.log ++ [t.id] } : RState) = s0
  have hq : s0.queue = s.queue := by rw [← hgen]
  have hi : s0.index = s.index := by rw [← hgen]
  rw [← hq, ← hi]
  clear hgen hq hi
  induction L generalizing s0 with
  | nil => simp
  | cons u L ih =>
    refine ⟨?_, ?_⟩
    · rw [List.foldl_cons, (ih (rawAsapR u s0)).1, rawAsapR_index]
    · calc s0.queue.length ≤ (rawAsapR u s0).queue.length := by
            rw [rawAsapR_queue]; simp
        _ ≤ _ := by rw [List.foldl_cons]; exact (ih (rawAsapR u s0)).2

/-- States reachable from a freshly constructed raw scheduler by any
interleaving of `rawAsap` calls and host-triggered `flush` calls —
including flushes interrupted by a task exception or stopped mid-loop. -/
inductive ReachR : RState → Prop where
  | init : ReachR initR
  | sched (t : RTask) {s : RState} : ReachR s → ReachR (rawAsapR t s)
  | flush (fuel : Nat) {s : RState} : ReachR s → ReachR (flushRaw fuel s).state

/-- The cursor invariant is preserved by one whole (or interrupted)
`flush` call. -/
theorem flushRaw_preserves_inv (fuel : Nat) :
    ∀ s : RState, s.index ≤ s.queue.length →
      (flushRaw fuel s).state.index ≤ (flushRaw fuel s).state.queue.length := by
  induction fuel with
  | zero => intro s h; exact h
  | succ fuel ih =>
    intro s h
    rw [flushRaw]
    by_cases hlt : s.index < s.queue.length
    · rw [dif_pos hlt]
      have hbody := runTaskBody_inv (s.queue[s.index])
        { s with index := s.index + 1 }
      have hinv1 : (runTaskBody s.queue[s.index]
          { s with index := s.index + 1 }).index
          ≤ (runTaskBody s.queue[s.index]
          { s with index := s.index + 1 }).queue.length := by
        rw [hbody.1]
        calc ({ s with index := s.index + 1 } : RState).index
            = s.index + 1 := rfl
          _ ≤ s.queue.length := hlt
          _ ≤ _ := hbody.2
      by_cases hth : (s.queue[s.index]).throws = true
      · rw [if_pos hth]
        exact hinv1
      · rw [if_neg hth]
        exact ih _ (maybeCompact_inv _ hinv1)
    · rw [dif_neg hlt]
      simp [FOut.state]

/-- Everything in a raw state except the `flushing` flag. -/
def RState.core (s : RState) : List RTask × Nat × Nat × List Nat :=
  (s.queue, s.index, s.requests, s.log)

/-- Outcomes agree up to the `flushing` flag of their states. -/
def FOut.coreRel : FOut → FOut → Prop
  | .ok s, .ok s2 => s.core = s2.core
  | .threw e s, .threw e2 s2 => e = e2 ∧ s.core = s2.core
  | .outOfFuel s, .outOfFuel s2 => s.core = s2.core
  | _, _ => False

theorem core_ext {s s2 : RState} (h : s.core = s2.core) :
    s.queue = s2.queue ∧ s.index = s2.index ∧ s.requests = s2.requests
      ∧ s.log = s2.log := by
  cases s
  cases s2
  simpa [RState.core] using h

theorem rawAsapR_core_congr (t : RTask) {s s2 : RState} (h : s.core = s2.core) :
    (rawAsapR t s).core = (rawAsapR t s2).core := by
  obtain ⟨h1, h2, h3, h4⟩ := core_ext h
  cases s
  cases s2
  simp only at h1 h2 h3 h4
  subst h1 h2 h3 h4
  simp only [rawAsapR, RState.core]
  split <;> rfl

theorem schedList_core_congr (L : List RTask) :
    ∀ {s s2 : RState}, s.core = s2.core →
      (L.foldl (fun a u => rawAsapR u a) s).core
        = (L.foldl (fun a u => rawAsapR u a) s2).core := by
  induction L with
  | nil => intro s s2 h; simpa using h
  | cons u L ih =>
    intro s s2 h
    simp only [List.foldl_cons]
    exact ih (rawAsapR_core_congr u h)

theorem runTaskBody_core_congr (t : RTask) {s s2 : RState} (h : s.core = s2.core) :
    (runTaskBody t s).core = (runTaskBody t s2).core := by
  obtain ⟨h1, h2, h3, h4⟩ := core_ext h
  refine schedList_core_congr t.schedules ?_
  simp [RState.core, h1, h2, h3, h4]

theorem maybeCompact_core_congr {s s2 : RState} (h : s.core = s2.core) :
    (maybeCompact s).core = (maybeCompact s2).core := by
  obtain ⟨h1, h2, h3, h4⟩ := core_ext h
  simp only [maybeCompact, h2]
  split <;> simp [RState.core, h1, h2, h3, h4]

/-- A whole `flush` call never reads the `flushing` flag: two states that
agree on everything else produce outcomes that agree on everything else. -/
theorem flushRaw_core_congr (fuel : Nat) :
    ∀ {s s2 : RState}, s.core = s2.core →
      FOut.coreRel (flushRaw fuel s) (flushRaw fuel s2) := by
  induction fuel with
  | zero => intro s s2 h; exact h
  | succ fuel ih =>
    intro s s2 h
    obtain ⟨h1, h2, _, h4⟩ := core_ext h
    rw [flushRaw, flushRaw]
    by_cases hlt : s.index < s.queue.length
    · have hlt2 : s2.index < s2.queue.length := by rw [← h1, ← h2]; exact hlt
      rw [dif_pos hlt, dif_pos hlt2]
      have hsame : s2.queue[s2.index] = s.queue[s.index] := by
        congr 1
        · exact h1.symm
        · exact h2.symm
      rw [hsame]
      have hbody : (runTaskBody s.queue[s.index]
            { s with index := s.index + 1 }).core
          = (runTaskBody s.queue[s.index] { s2 with index := s2.index + 1 }).core := by
        refine runTaskBody_core_congr _ ?_
        simp [RState.core, h1, h2, core_ext h |>.2.2.1, h4]
      by_cases hth : (s.queue[s.index]).throws = true
      · rw [if_pos hth, if_pos hth]
        exact ⟨rfl, hbody⟩
      · rw [if_neg hth, if_neg hth]
        exact ih (maybeCompact_core_congr hbody)
    · have hlt2 : ¬ s2.index < s2.queue.length := by rw [← h1, ← h2]; exact hlt
      rw [dif_neg hlt, dif_neg hlt2]
      simp [FOut.coreRel, RState.core, core_ext h |>.2.2.1, h4]

/-! ## Facts about the safe layer -/

/-- Identifiers logged by one holder invocation. -/
def holderLogOf : Holder → List Nat
  | some t => [t.id]
  | none => []

/-- Errors a holder invocation appends to `pendingErrors` (hook absent:
captured errors are queued; hook present: nothing is queued). -/
def holderErrs (oe : Bool) : Holder → List AErr
  | some t => if t.throws && !oe then [.taskErr t.id] else []
  | none => if oe then [] else [.typeErr]

/-- Errors a holder invocation hands to the `onerror` hook. -/
def holderHook (oe : Bool) : Holder → List AErr
  | some t => if t.throws && oe then [.taskErr t.id] else []
  | none => if oe then [.typeErr] else []

theorem holderCall_spec (h : Holder) (s : AState) :
    (holderCall h s).queue = s.queue
    ∧ (holderCall h s).index = s.index
    ∧ (holderCall h s).flushing = s.flushing
    ∧ (holderCall h s).requests = s.requests
    ∧ (holderCall h s).onerror = s.onerror
    ∧ (holderCall h s).freeTasks = none :: s.freeTasks
    ∧ (holderCall h s).log = s.log ++ holderLogOf h
    ∧ (holderCall h s).pendingErrors = s.pendingErrors ++ holderErrs s.onerror h
    ∧ (holderCall h s).errorThrowRequests
        = s.errorThrowRequests + (holderErrs s.onerror h).length
    ∧ (holderCall h s).hookLog = s.hookLog ++ holderHook s.onerror h := by
  cases h with
  | some t =>
    by_cases hth : t.throws = true
    · by_cases hoe : s.onerror = true
      · simp [holderCall, holderLogOf, holderErrs, holderHook, hth, hoe]
      · simp at hoe
        simp [holderCall, holderLogOf, holderErrs, holderHook, hth, hoe]
    · simp at hth
      simp [holderCall, holderLogOf, holderErrs, holderHook, hth]
  | none =>
    by_cases hoe : s.onerror = true
    · simp [holderCall, holderLogOf, holderErrs, holderHook, hoe]
    · simp at hoe
      simp [holderCall, holderLogOf, holderErrs, holderHook, hoe]

def AState.pendlen (s : AState) : Nat := s.queue.length - s.index

theorem pendingA_length (s : AState) : s.pending.length = s.queue.length - s.index := by
  simp [AState.pending]

theorem pendingA_cons_head (s : AState) (h : Holder) (rest : List Holder)
    (hp : s.pending = h :: rest) :
    ∃ hlt : s.index < s.queue.length,
      s.queue[s.index] = h ∧ s.queue.drop (s.index + 1) = rest := by
  have hlt : s.index < s.queue.length := by
    by_contra hge
    rw [AState.pending, List.drop_eq_nil_of_le (by omega)] at hp
    exact List.noConfusion hp
  refine ⟨hlt, ?_⟩
  rw [AState.pending, List.drop_eq_getElem_cons hlt] at hp
  exact ⟨(List.cons.injEq _ _ _ _ ▸ hp).1, (List.cons.injEq _ _ _ _ ▸ hp).2⟩

theorem maybeCompactA_spec (s : AState) (hle : s.index ≤ s.queue.length) :
    (maybeCompactA s).pending = s.pending
    ∧ (maybeCompactA s).flushing = s.flushing
    ∧ (maybeCompactA s).requests = s.requests
    ∧ (maybeCompactA s).freeTasks = s.freeTasks
    ∧ (maybeCompactA s).pendingErrors = s.pendingErrors
    ∧ (maybeCompactA s).errorThrowRequests = s.errorThrowRequests
    ∧ (maybeCompactA s).onerror = s.onerror
    ∧ (maybeCompactA s).hookLog = s.hookLog
    ∧ (maybeCompactA s).log = s.log := by
  simp only [maybeCompactA]
  split
  · refine ⟨?_, rfl, rfl, rfl, rfl, rfl, rfl, rfl, rfl⟩
    simp [AState.pending, compactQueue_eq_drop s.queue s.index hle]
  · exact ⟨rfl, rfl, rfl, rfl, rfl, rfl, rfl, rfl, rfl⟩

/-- Full characterisation of one completed `flush` of the safe layer
over its pending holders: every holder is invoked exactly once in order
(log), each is cleared and pushed back to the free pool, thrown errors
are captured in order (hook absent) or handed to the hook (hook
present), and one `requestErrorThrow` fires per captured error; the
queue ends empty with the cursor reset and the flag cleared. -/
theorem flushSafeF_spec (P : List Holder) :
    ∀ (fuel : Nat) (s : AState), s.pending = P → P.length < fuel →
      flushSafeF fuel s =
        { queue := [], index := 0, flushing := false, requests := s.requests,
          freeTasks := List.replicate P.length (none : Holder) ++ s.freeTasks,
          pendingErrors := s.pendingErrors ++ P.flatMap (holderErrs s.onerror),
          errorThrowRequests := s.errorThrowRequests
            + (P.flatMap (holderErrs s.onerror)).length,
          onerror := s.onerror,
          hookLog := s.hookLog ++ P.flatMap (holderHook s.onerror),
          log := s.log ++ P.flatMap holderLogOf } := by
  induction P with
  | nil =>
    intro fuel s hp hf
    obtain ⟨f, rfl⟩ : ∃ f, fuel = f + 1 := ⟨fuel - 1, by omega⟩
    have hge : ¬ s.index < s.queue.length := by
      have hl := pendingA_length s
      rw [hp] at hl
      simp at hl
      omega
    simp only [flushSafeF, dif_neg hge]
    simp
  | cons h rest ih =>
    intro fuel s hp hf
    obtain ⟨f, rfl⟩ : ∃ f, fuel = f + 1 := ⟨fuel - 1, by omega⟩
    obtain ⟨hlt, hhead, hdrop⟩ := pendingA_cons_head s h rest hp
    simp only [flushSafeF, dif_pos hlt, hhead]
    set sc : AState := holderCall h { s with index := s.index + 1 } with hsc
    obtain ⟨c1, c2, c3, c4, c5, c6, c7, c8, c9, c10⟩ :=
      holderCall_spec h { s with index := s.index + 1 }
    have hle : sc.index ≤ sc.queue.length := by
      rw [c1, c2]
      exact hlt
    obtain ⟨m1, m2, m3, m4, m5, m6, m7, m8, m9⟩ := maybeCompactA_spec sc hle
    have hpend : (maybeCompactA sc).pending = rest := by
      rw [m1, AState.pending, c1, c2]
      exact hdrop
    have hoe : (maybeCompactA sc).onerror = s.onerror := by
      rw [m7, c5]
    rw [ih f (maybeCompactA sc) hpend (by simp at hf; omega)]
    rw [hoe, m3, c4, m4, c6, m5, c8, m6, c9, m8, c10, m9, c7]
    simp [List.replicate_succ', Nat.add_assoc]

theorem rawAsapA_fields (h : Holder) (s : AState) :
    (rawAsapA h s).queue = s.queue ++ [h]
    ∧ (rawAsapA h s).index = s.index
    ∧ (rawAsapA h s).freeTasks = s.freeTasks
    ∧ (rawAsapA h s).pendingErrors = s.pendingErrors
    ∧ (rawAsapA h s).errorThrowRequests = s.errorThrowRequests
    ∧ (rawAsapA h s).onerror = s.onerror
    ∧ (rawAsapA h s).hookLog = s.hookLog
    ∧ (rawAsapA h s).log = s.log := by
  simp only [rawAsapA]
  split <;> exact ⟨rfl, rfl, rfl, rfl, rfl, rfl, rfl, rfl⟩

/-- Scheduling tasks on a fresh safe scheduler: since no holder has yet
been released, the pool stays empty and each task gets a fresh holder;
the queue ends up holding the tasks in order, each wrapped in a bound
holder. -/
theorem schedAllA_spec (oe : Bool) (Q : List STask) :
    (schedAllA oe Q).queue = Q.map some
    ∧ (schedAllA oe Q).index = 0
    ∧ (schedAllA oe Q).freeTasks = []
    ∧ (schedAllA oe Q).pendingErrors = []
    ∧ (schedAllA oe Q).errorThrowRequests = 0
    ∧ (schedAllA oe Q).onerror = oe
    ∧ (schedAllA oe Q).hookLog = []
    ∧ (schedAllA oe Q).log = []
    ∧ (schedAllA oe Q).pending = Q.map some := by
  have main : ∀ (L : List STask) (s : AState), s.freeTasks = [] →
      (L.foldl (fun a u => asapA u a) s).queue = s.queue ++ L.map some
      ∧ (L.foldl (fun a u => asapA u a) s).index = s.index
      ∧ (L.foldl (fun a u => asapA u a) s).freeTasks = []
      ∧ (L.foldl (fun a u => asapA u a) s).pendingErrors = s.pendingErrors
      ∧ (L.foldl (fun a u => asapA u a) s).errorThrowRequests = s.errorThrowRequests
      ∧ (L.foldl (fun a u => asapA u a) s).onerror = s.onerror
      ∧ (L.foldl (fun a u => asapA u a) s).hookLog = s.hookLog
      ∧ (L.foldl (fun a u => asapA u a) s).log = s.log := by
    intro L
    induction L with
    | nil => intro s hfree; simp [hfree]
    | cons t L ih =>
      intro s hfree
      have hstep : asapA t s = rawAsapA (some t) s := by
        simp only [asapA, hfree]
      obtain ⟨r1, r2, r3, r4, r5, r6, r7, r8⟩ := rawAsapA_fields (some t) s
      have hfree2 : (asapA t s).freeTasks = [] := by rw [hstep, r3, hfree]
      obtain ⟨i1, i2, i3, i4, i5, i6, i7, i8⟩ := ih (asapA t s) hfree2
      simp only [List.foldl_cons]
      refine ⟨?_, ?_, i3, ?_, ?_, ?_, ?_, ?_⟩
      · rw [i1, hstep, r1]
        simp
      · rw [i2, hstep, r2]
      · rw [i4, hstep, r4]
      · rw [i5, hstep, r5]
      · rw [i6, hstep, r6]
      · rw [i7, hstep, r7]
      · rw [i8, hstep, r8]
  obtain ⟨h1, h2, h3, h4, h5, h6, h7, h8⟩ := main Q (initA oe) rfl
  have hq : (schedAllA oe Q).queue = Q.map some := by
    rw [schedAllA] at *
    rw [h1]
    rfl
  have hi : (schedAllA oe Q).index = 0 := by
    rw [schedAllA] at *
    rw [h2]
    rfl
  refine ⟨hq, hi, h3, by rw [schedAllA] at *; rw [h4]; rfl,
    by rw [schedAllA] at *; rw [h5]; rfl, by rw [schedAllA] at *; rw [h6]; rfl,
    by rw [schedAllA] at *; rw [h7]; rfl, by rw [schedAllA] at *; rw [h8]; rfl, ?_⟩
  rw [AState.pending, hq, hi]
  simp

/-- Holder-wise effects over a queue of bound holders, reduced to the
underlying tasks. -/
theorem flatMap_some_log (Q : List STask) :
    (Q.map some).flatMap holderLogOf = Q.map STask.id := by
  induction Q with
  | nil => rfl
  | cons t Q ih => simp [holderLogOf, ih]

theorem flatMap_some_errs (Q : List STask) :
    (Q.map some).flatMap (holderErrs false)
      = (Q.filter (fun t => t.throws)).map (fun t => AErr.taskErr t.id) := by
  induction Q with
  | nil => rfl
  | cons t Q ih =>
    by_cases hth : t.throws = true
    · simp [holderErrs, hth, List.filter_cons, ih]
    · simp at hth
      simp [holderErrs, hth, List.filter_cons, ih]

/-- Iterated draining: `k` low-priority turns re-throw exactly the first `k` captured
errors, oldest first. -/
theorem drainErrors_take (k : Nat) :
    ∀ s : AState, (drainErrors k s).1 = s.pendingErrors.take k := by
  induction k with
  | zero => intro s; simp [drainErrors]
  | succ k ih =>
    intro s
    cases hpe : s.pendingErrors with
    | nil => simp [drainErrors, throwFirstError, hpe]
    | cons e rest =>
      simp only [drainErrors, throwFirstError, hpe]
      rw [List.take_succ_cons]
      simp [ih]

/-! ## The claims -/

/-- C1: For every sequence of N tasks scheduled via the safe scheduler's
`asap` operation, each of the N tasks is invoked exactly once, in the
exact order in which they were scheduled, regardless of how many of
those tasks throw (and regardless of whether the error-observation hook
is configured): the invocation log of the triggered flush is exactly the
scheduled ids, in order. -/
theorem asap_tasks_invoked_once_in_order (oe : Bool) (Q : List STask) :
    (flushSafe (schedAllA oe Q)).log = Q.map STask.id := by
  obtain ⟨h1, h2, _, _, _, _, _, h8, h9⟩ := schedAllA_spec oe Q
  have hfuel : (Q.map some).length < (schedAllA oe Q).queue.length
      - (schedAllA oe Q).index + 1 := by
    rw [h1, h2]
    simp
  rw [flushSafe, flushSafeF_spec (Q.map some) _ _ h9 hfuel]
  rw [h8, flatMap_some_log]
  simp

/-- C2: When no error-observation hook is configured, the errors of the
throwing tasks are captured in `pendingErrors` in schedule order; `k`
successive `throwFirstError` turns re-throw exactly the first `k` of
them, oldest first; and any single `throwFirstError` invocation on a
non-empty `pendingErrors` removes and throws precisely its head. -/
theorem pending_errors_fifo (Q : List STask) (k : Nat) :
    (flushSafe (schedAllA false Q)).pendingErrors
      = (Q.filter (fun t => t.throws)).map (fun t => AErr.taskErr t.id)
    ∧ (drainErrors k (flushSafe (schedAllA false Q))).1
      = ((Q.filter (fun t => t.throws)).map (fun t => AErr.taskErr t.id)).take k
    ∧ (∀ (s2 : AState) (e : AErr) (rest : List AErr),
        s2.pendingErrors = e :: rest →
        throwFirstError s2 = (some e, { s2 with pendingErrors := rest })) := by
  obtain ⟨h1, h2, _, h4, _, h6, _, _, h9⟩ := schedAllA_spec false Q
  have hfuel : (Q.map some).length < (schedAllA false Q).queue.length
      - (schedAllA false Q).index + 1 := by
    rw [h1, h2]
    simp
  have hpe : (flushSafe (schedAllA false Q)).pendingErrors
      = (Q.filter (fun t => t.throws)).map (fun t => AErr.taskErr t.id) := by
    rw [flushSafe, flushSafeF_spec (Q.map some) _ _ h9 hfuel]
    rw [h4, h6, flatMap_some_errs]
    simp
  refine ⟨hpe, ?_, ?_⟩
  · rw [drainErrors_take, hpe]
  · intro s2 e rest h
    simp [throwFirstError, h]

theorem pending_errors_fifo_witness :
    throwFirstError
        { queue := [], index := 0, flushing := false, requests := 0,
          freeTasks := [], pendingErrors := [AErr.taskErr 8, AErr.taskErr 9],
          errorThrowRequests := 2, onerror := false, hookLog := [], log := [] }
      = (some (AErr.taskErr 8),
        { queue := [], index := 0, flushing := false, requests := 0,
          freeTasks := [], pendingErrors := [AErr.taskErr 9],
          errorThrowRequests := 2, onerror := false, hookLog := [], log := [] }) := by
  have h := (pending_errors_fifo [] 0).2.2
    { queue := [], index := 0, flushing := false, requests := 0,
      freeTasks := [], pendingErrors := [AErr.taskErr 8, AErr.taskErr 9],
      errorThrowRequests := 2, onerror := false, hookLog := [], log := [] }
    (AErr.taskErr 8) [AErr.taskErr 9] rfl
  exact h

/-- C3: the claim states that constructing the safe scheduler
successfully builds the timer-based `requestErrorThrow`.  In the shipped
`Asap` constructor the line
`this.rawAsap.makeRequestCallFromTimer(this.throwFirstError)` reads the
member off the bound `rawAsap` function, which does not have it, so the
member access yields `undefined` and the call raises a `TypeError`: the
constructor aborts and never builds `requestErrorThrow`.  The
repository's self-contained variant of the same class calls
`this.makeRequestCallFromTimer(...)` on the instance, which succeeds —
confirming that the shipped line is a slip, not the intent. -/
theorem requestErrorThrow_construction_fails :
    constructRequestErrorThrow = CtorOutcome.typeError
    ∧ constructRequestErrorThrowStandalone = CtorOutcome.builtTimerRequest := by
  exact ⟨rfl, rfl⟩

/-- C4: `rawAsap(task)` appends the task at the tail of the queue, and
invokes the platform request primitive (and sets the `flushing` flag)
exactly when the queue was empty immediately before the call; scheduling
onto a non-empty queue issues no request and leaves the flag alone. -/
theorem rawAsap_requests_iff_queue_was_empty (s : RState) (t : RTask) :
    (rawAsapR t s).queue = s.queue ++ [t]
    ∧ (s.queue = [] → (rawAsapR t s).requests = s.requests + 1
        ∧ (rawAsapR t s).flushing = true)
    ∧ (s.queue ≠ [] → (rawAsapR t s).requests = s.requests
        ∧ (rawAsapR t s).flushing = s.flushing)
    ∧ ((rawAsapR t s).requests = s.requests + 1 ↔ s.queue = []) := by
  refine ⟨rawAsapR_queue t s, ?_, ?_, ?_⟩
  · intro h
    simp [rawAsapR, h]
  · intro h
    exact ⟨rawAsapR_requests t s h, rawAsapR_flushing t s h⟩
  · constructor
    · intro h
      by_contra hne
      rw [rawAsapR_requests t s hne] at h
      omega
    · intro h
      simp [rawAsapR, h]

theorem rawAsap_requests_iff_queue_was_empty_witness :
    (rawAsapR (RTask.mk [] false 7) initR).requests = initR.requests + 1
    ∧ (rawAsapR (RTask.mk [] false 8)
        (rawAsapR (RTask.mk [] false 7) initR)).requests
      = (rawAsapR (RTask.mk [] false 7) initR).requests := by
  constructor
  · exact ((rawAsap_requests_iff_queue_was_empty initR (RTask.mk [] false 7)).2.1 rfl).1
  · refine ((rawAsap_requests_iff_queue_was_empty
      (rawAsapR (RTask.mk [] false 7) initR) (RTask.mk [] false 8)).2.2.1 ?_).1
    rw [rawAsapR_queue]
    simp

/-- C5: the cursor is advanced past the current task strictly before the
task is invoked, so an exception interrupting `flush` leaves the state
resuming at the task after the throwing one.  Consequently (first
conjunct) across any number of exception-interrupted flush calls every
scheduled task is invoked exactly once, in order; and (second conjunct)
a single interrupted flush has invoked exactly the tasks up to and
including the thrower, and its interrupted state's pending tasks are
exactly those after the thrower. -/
theorem flush_at_most_once_per_task :
    (∀ Q : List RTask, (∀ t ∈ Q, t.schedules = []) →
      (flushResume (Q.length + 1) (schedAllR Q)).log = Q.map RTask.id
      ∧ (flushResume (Q.length + 1) (schedAllR Q)).queue = []
      ∧ (flushResume (Q.length + 1) (schedAllR Q)).index = 0)
    ∧ (∀ (s : RState) (P1 : List RTask) (t : RTask) (P2 : List RTask),
        s.pending = P1 ++ t :: P2 →
        (∀ u ∈ P1 ++ t :: P2, u.schedules = []) →
        (∀ u ∈ P1, u.throws = false) → t.throws = true →
        ∃ s2, flushOnce s = FOut.threw t.id s2 ∧ s2.pending = P2
          ∧ s2.log = s.log ++ (P1 ++ [t]).map RTask.id) := by
  constructor
  · intro Q hplain
    obtain ⟨hq, hi, hl, hpend⟩ := schedAllR_spec Q
    have hcount : throwCount Q < Q.length + 1 := by
      have := List.length_filter_le (fun t => t.throws) Q
      rw [throwCount]
      omega
    rw [flushResume_spec (Q.length + 1) Q (schedAllR Q) hpend hplain hcount, hl]
    exact ⟨by simp, rfl, rfl⟩
  · intro s P1 t P2 hp hplain hfree hth
    have hfuel : P1.length < s.queue.length - s.index + 1 := by
      have hl := pending_length s
      rw [hp] at hl
      simp at hl
      omega
    obtain ⟨s2, heq, h2, h3, _, _⟩ :=
      flushRaw_threw_spec P1 t P2 (s.queue.length - s.index + 1) s hp hplain hfree hth hfuel
    exact ⟨s2, heq, h2, h3⟩

theorem flush_at_most_once_per_task_witness :
    (flushResume 4 (schedAllR
        [RTask.mk [] false 1, RTask.mk [] true 2, RTask.mk [] false 3])).log
      = [1, 2, 3] := by
  have h := flush_at_most_once_per_task.1
    [RTask.mk [] false 1, RTask.mk [] true 2, RTask.mk [] false 3]
    (by
      intro t ht
      simp only [List.mem_cons, List.not_mem_nil, or_false] at ht
      rcases ht with rfl | rfl | rfl <;> rfl)
  exact h.1

/-- C6: whenever the cursor exceeds the capacity threshold (1024) the
queue is compacted — the entry at position `cursor + i` moves to
position `i`, the stored length shrinks by `cursor` down to the number
of still-pending tasks, the cursor resets to 0, and the pending sequence
is unchanged; at or below the threshold, no compaction happens; and the
flush loop applies this step right after each non-throwing invocation. -/
theorem flush_compaction_correct :
    (∀ s : RState, capacity < s.index → s.index ≤ s.queue.length →
      (maybeCompact s).queue.length = s.queue.length - s.index
      ∧ (∀ i, i < s.queue.length - s.index →
          (maybeCompact s).queue.getD i default = s.queue.getD (i + s.index) default)
      ∧ (maybeCompact s).index = 0
      ∧ (maybeCompact s).pending = s.pending
      ∧ (maybeCompact s).queue.length = s.pending.length)
    ∧ (∀ s : RState, s.index ≤ capacity → maybeCompact s = s)
    ∧ (∀ (fuel : Nat) (s : RState) (hlt : s.index < s.queue.length),
        (s.queue[s.index]).throws = false →
        flushRaw (fuel + 1) s
          = flushRaw fuel (maybeCompact (runTaskBody s.queue[s.index]
              { s with index := s.index + 1 }))) := by
  refine ⟨?_, ?_, ?_⟩
  · intro s hcap hle
    have hq : (maybeCompact s).queue = compactQueue s.queue s.index := by
      simp [maybeCompact, hcap]
    have hi : (maybeCompact s).index = 0 := by
      simp [maybeCompact, hcap]
    refine ⟨?_, ?_, hi, maybeCompact_pending s hle, ?_⟩
    · rw [hq]
      simp [compactQueue]
    · intro i hirange
      rw [hq, compactQueue_eq_drop s.queue s.index hle]
      rw [List.getD_eq_getElem?_getD, List.getD_eq_getElem?_getD,
        List.getElem?_drop, Nat.add_comm s.index i]
    · rw [hq, pending_length]
      simp [compactQueue]
  · intro s hle
    simp [maybeCompact, Nat.not_lt.mpr hle]
  · intro fuel s hlt hth
    simp only [flushRaw, dif_pos hlt, hth]
    simp

set_option maxRecDepth 4096 in
theorem flush_compaction_correct_witness :
    capacity < 1025
    ∧ (maybeCompact
        ⟨List.replicate 1026 (RTask.mk [] false 0), 1025, true, 1, []⟩).queue.length = 1
    ∧ (maybeCompact
        ⟨List.replicate 1026 (RTask.mk [] false 0), 1025, true, 1, []⟩).index = 0 := by
  have h := flush_compaction_correct.1
    ⟨List.replicate 1026 (RTask.mk [] false 0), 1025, true, 1, []⟩
    (by decide)
    (by
      show 1025 ≤ (List.replicate 1026 (RTask.mk [] false 0)).length
      rw [List.length_replicate]
      omega)
  refine ⟨by decide, ?_, h.2.2.1⟩
  have h1 := h.1
  dsimp only at h1
  have h2 : (List.replicate 1026 (RTask.mk [] false 0)).length = 1026 :=
    List.length_replicate 1026 _
  omega

/-- C7: a `flush` call that returns normally (no task threw out of it)
leaves the queue truncated to length 0, the cursor reset to 0, and the
`flushing` flag false; and over pending tasks that neither throw nor
reschedule, `flush` does return normally, having invoked them all. -/
theorem flush_completion_resets_state :
    (∀ (fuel : Nat) (s s2 : RState), flushRaw fuel s = FOut.ok s2 →
      s2.queue = [] ∧ s2.index = 0 ∧ s2.flushing = false)
    ∧ (∀ s : RState, (∀ t ∈ s.pending, t.schedules = [] ∧ t.throws = false) →
        flushOnce s = FOut.ok
          { queue := [], index := 0, flushing := false,
            requests := s.requests, log := s.log ++ s.pending.map RTask.id }) := by
  constructor
  · intro fuel s s2 h
    exact flushRaw_ok_state fuel s s2 h
  · intro s hgood
    refine flushRaw_ok_of_noThrow s.pending _ s rfl
      (fun t ht => (hgood t ht).1) (fun t ht => (hgood t ht).2) ?_
    rw [pending_length]
    omega

theorem flush_completion_resets_state_witness :
    flushOnce ⟨[RTask.mk [] false 5], 0, true, 1, []⟩
      = FOut.ok ⟨[], 0, false, 1, [5]⟩ := by
  have h := flush_completion_resets_state.2
    ⟨[RTask.mk [] false 5], 0, true, 1, []⟩
    (by
      intro t ht
      simp only [RState.pending, List.drop_zero, List.mem_singleton] at ht
      subst ht
      exact ⟨rfl, rfl⟩)
  exact h

/-- C8: in every state reachable by any interleaving of `rawAsap` calls
and (possibly exception-interrupted or mid-loop) `flush` calls —
including recursive scheduling from inside running tasks and states just
after compaction — the cursor satisfies 0 ≤ cursor ≤ queue length. -/
theorem cursor_invariant_reachable (s : RState) (h : ReachR s) :
    0 ≤ s.index ∧ s.index ≤ s.queue.length := by
  refine ⟨Nat.zero_le _, ?_⟩
  induction h with
  | init => exact Nat.le_refl 0
  | sched t hr ih =>
    rw [rawAsapR_index, rawAsapR_queue]
    simp only [List.length_append, List.length_cons, List.length_nil]
    omega
  | flush fuel hr ih =>
    exact flushRaw_preserves_inv fuel _ ih

theorem cursor_invariant_reachable_witness :
    ((flushRaw 1 (rawAsapR (RTask.mk [] true 4) initR)).state).index
      ≤ ((flushRaw 1 (rawAsapR (RTask.mk [] true 4) initR)).state).queue.length := by
  exact (cursor_invariant_reachable _
    (ReachR.flush 1 (ReachR.sched (RTask.mk [] true 4) ReachR.init))).2

/-- C9: on every exit path of a holder's `call` — bound task returns
normally, bound task throws with the hook configured, bound task throws
with no hook (and also on the degenerate null-task path) — the holder is
pushed back onto the free pool exactly once with its task reference
cleared, the raw queue and cursor are untouched, and no exception
escapes (`holderCall` is a total function into states).  Each path has
exactly its intended error effect. -/
theorem holder_call_cleanup_all_paths (h : Holder) (s : AState) :
    (holderCall h s).freeTasks = none :: s.freeTasks
    ∧ (holderCall h s).queue = s.queue
    ∧ (holderCall h s).index = s.index
    ∧ (∀ t : STask, h = some t → t.throws = false →
        (holderCall h s).pendingErrors = s.pendingErrors
        ∧ (holderCall h s).hookLog = s.hookLog
        ∧ (holderCall h s).errorThrowRequests = s.errorThrowRequests
        ∧ (holderCall h s).log = s.log ++ [t.id])
    ∧ (∀ t : STask, h = some t → t.throws = true → s.onerror = true →
        (holderCall h s).hookLog = s.hookLog ++ [AErr.taskErr t.id]
        ∧ (holderCall h s).pendingErrors = s.pendingErrors
        ∧ (holderCall h s).errorThrowRequests = s.errorThrowRequests)
    ∧ (∀ t : STask, h = some t → t.throws = true → s.onerror = false →
        (holderCall h s).pendingErrors = s.pendingErrors ++ [AErr.taskErr t.id]
        ∧ (holderCall h s).errorThrowRequests = s.errorThrowRequests + 1
        ∧ (holderCall h s).hookLog = s.hookLog) := by
  obtain ⟨c1, c2, c3, c4, c5, c6, c7, c8, c9, c10⟩ := holderCall_spec h s
  refine ⟨c6, c1, c2, ?_, ?_, ?_⟩
  · rintro t rfl hth
    refine ⟨?_, ?_, ?_, ?_⟩
    · rw [c8]
      simp [holderErrs, hth]
    · rw [c10]
      simp [holderHook, hth]
    · rw [c9]
      simp [holderErrs, hth]
    · rw [c7]
      simp [holderLogOf]
  · rintro t rfl hth hoe
    refine ⟨?_, ?_, ?_⟩
    · rw [c10]
      simp [holderHook, hth, hoe]
    · rw [c8]
      simp [holderErrs, hth, hoe]
    · rw [c9]
      simp [holderErrs, hth, hoe]
  · rintro t rfl hth hoe
    refine ⟨?_, ?_, ?_⟩
    · rw [c8]
      simp [holderErrs, hth, hoe]
    · rw [c9]
      simp [holderErrs, hth, hoe]
    · rw [c10]
      simp [holderHook, hth, hoe]

theorem holder_call_cleanup_all_paths_witness :
    (holderCall (some ⟨3, true⟩) (initA false)).freeTasks = [none]
    ∧ (holderCall (some ⟨3, true⟩) (initA false)).pendingErrors = [AErr.taskErr 3]
    ∧ (holderCall (some ⟨3, true⟩) (initA false)).errorThrowRequests = 1 := by
  have h := holder_call_cleanup_all_paths (some ⟨3, true⟩) (initA false)
  have hpath := h.2.2.2.2.2 ⟨3, true⟩ rfl rfl rfl
  exact ⟨h.1, hpath.1, hpath.2.1⟩

/-- C10: the `flushing` flag is write-only — neither `rawAsap` nor
`flush` reads it: on two states agreeing on everything but the flag,
`rawAsap` and `flush` produce outcomes again agreeing on everything but
the flag; and whether `rawAsap` issues a platform request is determined
solely by queue emptiness — in particular after an interrupted flush
(queue non-empty), every `rawAsap` call appends its task without issuing
any request and without touching the flag, so nothing re-arms the flush
callback. -/
theorem flushing_flag_write_only (s s2 : RState) (t : RTask) (fuel : Nat)
    (h : s.core = s2.core) :
    (rawAsapR t s).core = (rawAsapR t s2).core
    ∧ FOut.coreRel (flushRaw fuel s) (flushRaw fuel s2)
    ∧ (s.queue ≠ [] → (rawAsapR t s).requests = s.requests
        ∧ (rawAsapR t s).flushing = s.flushing
        ∧ (rawAsapR t s).queue = s.queue ++ [t]) := by
  refine ⟨rawAsapR_core_congr t h, flushRaw_core_congr fuel h, ?_⟩
  intro hne
  exact ⟨rawAsapR_requests t s hne, rawAsapR_flushing t s hne, rawAsapR_queue t s⟩

theorem flushing_flag_write_only_witness :
    (rawAsapR (RTask.mk [] false 6)
        ⟨[RTask.mk [] true 5], 1, true, 1, [5]⟩).core
      = (rawAsapR (RTask.mk [] false 6)
        ⟨[RTask.mk [] true 5], 1, false, 1, [5]⟩).core
    ∧ (rawAsapR (RTask.mk [] false 6)
        ⟨[RTask.mk [] true 5], 1, true, 1, [5]⟩).requests = 1 := by
  have h := flushing_flag_write_only
    ⟨[RTask.mk [] true 5], 1, true, 1, [5]⟩
    ⟨[RTask.mk [] true 5], 1, false, 1, [5]⟩
    (RTask.mk [] false 6) 0 rfl
  refine ⟨h.1, ?_⟩
  have h3 := h.2.2 (by simp)
  exact h3.1
